import Mathlib

/-! # Root-type resolution and definition collection of a TypeScript JSON-schema generator

This file is a shallow embedding of the core of `src/SchemaGenerator.ts`: the
declaration index builder (`inspectNode`, `appendTypes`), the root selector
(`getRootNodes`, `findNamedNode`, `partitionFiles`), the definition collector
(`appendRootChildDefinitions`) and the document assembly (`createSchema`).
TypeScript AST nodes, type-graph nodes and the external parser/formatter
collaborators are modelled as explicit data; JavaScript `Map` objects and
plain-object string maps are modelled as insertion-ordered association lists;
thrown exceptions are modelled with `Except`. -/

namespace SchemaGen

/-- Insertion-ordered string-keyed map modelling both JavaScript `Map` objects
and plain-object string maps (`StringMap<Definition>`): keys are unique, `set`
on an existing key updates the value in place, `set` on a fresh key appends. -/
abbrev JsMap (α : Type) := List (String × α)

/-- JavaScript `Map.prototype.has`, and the `in` operator on plain objects. -/
def jsHas {α : Type} (m : JsMap α) (k : String) : Bool :=
  m.any fun p => p.1 == k

/-- JavaScript `Map.prototype.get` and `obj[k]`; `undefined` becomes `none`. -/
def jsGet {α : Type} (m : JsMap α) (k : String) : Option α :=
  (m.find? fun p => p.1 == k).map Prod.snd

/-- JavaScript `Map.prototype.set` and `obj[k] = v`: update the (unique)
existing binding in place, otherwise append a new binding at the end. -/
def jsSet {α : Type} : JsMap α → String → α → JsMap α
  | [], k, v => [(k, v)]
  | p :: m, k, v => if p.1 == k then (k, v) :: m else p :: jsSet m k v

/-- JavaScript `Map.prototype.values` (values in insertion order). -/
def jsValues {α : Type} (m : JsMap α) : List α := m.map Prod.snd

/-- Sequentially `set` a list of bindings into a map. -/
def jsSetAll {α : Type} (m : JsMap α) : List (String × α) → JsMap α
  | [] => m
  | p :: ps => jsSetAll (jsSet m p.1 p.2) ps

/-! ## The regular-expression strip in getFullName

`getFullName` computes `typeChecker.getFullyQualifiedName(symbol).replace(/".*"\./, "")`.
We model the replace of this one pattern directly: the leftmost match is found,
at the leftmost position the greedy `.*` (any characters except a newline)
extends to the last closing quote that is followed by a dot, and the match is
replaced by the empty string. -/

/-- The shortest candidate for the closing part of the pattern: the current
character is the closing `"` and the next character is the `.`; then the
remainder after that pair is returned. -/
def quoteDotHead (c : Char) : List Char → Option (List Char)
  | d :: rem => if c = '"' ∧ d = '.' then some rem else none
  | [] => none

/-- Given the characters after an opening quote, find the end of a (greedy)
match of the rest of the pattern, i.e. locate the last position where a `"`
immediately followed by a `.` occurs such that all characters before it are
newline-free, and return the characters after that `"` `.` pair. -/
def matchClose : List Char → Option (List Char)
  | [] => none
  | c :: cs =>
    if c = '\n' then none
    else
      match matchClose cs with
      | some rem => some rem
      | none => quoteDotHead c cs

/-- JavaScript `s.replace(/".*"\./, "")` on the character list of `s`: scan for
the leftmost position where the pattern matches (it can only match starting at
a `"`), delete the greedy match there, and keep everything else. -/
def replaceQuoteDot : List Char → List Char
  | [] => []
  | c :: cs =>
    if c = '"' then
      match matchClose cs with
      | some rem => rem
      | none => c :: replaceQuoteDot cs
    else c :: replaceQuoteDot cs

/-- The string-level `.replace(/".*"\./, "")` step used by `getFullName`. -/
def stripModuleQuote (s : String) : String := ⟨replaceQuoteDot s.data⟩

/-! ## The data model: AST nodes, type-graph nodes, collaborators -/

/-- The four declaration syntax kinds the index builder reacts to
(`ts.SyntaxKind.InterfaceDeclaration | ClassDeclaration | EnumDeclaration |
TypeAliasDeclaration`). -/
inductive DeclKind where
  | interfaceDecl
  | classDecl
  | enumDecl
  | typeAliasDecl
deriving DecidableEq

/-- The fields of a declaration node that `SchemaGenerator` observes.
`localSymbol = some b` means `localSymbolAtNode(node)` is defined and `b`
records whether that symbol has an `exportSymbol` property; `none` means the
binder attached no local symbol.  `symbol = some s` means `symbolAtNode(node)`
is defined and the type checker's `getFullyQualifiedName` for it is `s`
(the raw name, before the quote-stripping replace); `none` means the node has
no bound symbol, so the non-null assertion in `getFullName` would crash.
`typeParams` is the length of the node's `typeParameters` array (0 when the
property is absent, as it always is on enum declarations). -/
structure DeclInfo where
  kind : DeclKind
  localSymbol : Option Bool
  symbol : Option String
  typeParams : Nat
deriving DecidableEq

mutual
/-- A TypeScript AST node as `inspectNode` observes it: either one of the four
declaration kinds (into which `inspectNode` never descends), or any other node,
carrying the child list that `ts.forEachChild` iterates over.  A source file's
root node is a `node` (kind `SourceFile` takes the `default` branch). -/
inductive TsNode where
  | decl (info : DeclInfo)
  | node (children : TsKids)

/-- The children of a non-declaration AST node, in document order. -/
inductive TsKids where
  | nil
  | cons (head : TsNode) (tail : TsKids)
end

/-- A resolved type-graph node (`BaseType`).  The collector only distinguishes
`DefinitionType` wrappers (which carry an `id`, a `name` and the wrapped type)
from every other `BaseType` subclass; every node has an `id`. -/
inductive BaseType where
  | definitionType (id : String) (name : String) (inner : BaseType)
  | otherType (id : String)
deriving DecidableEq

/-- BaseType.getId. -/
def BaseType.getId : BaseType → String
  | .definitionType i _ _ => i
  | .otherType i => i

/-- DefinitionType.getName (the definitions-table key).  Only ever called on
`definitionType` nodes by the collector; arbitrary on other nodes. -/
def BaseType.getName : BaseType → String
  | .definitionType _ n _ => n
  | .otherType _ => ""

/-- DefinitionType.getType (the wrapped type passed to `getDefinition`). -/
def BaseType.getType : BaseType → BaseType
  | .definitionType _ _ t => t
  | t => t

/-- The `child instanceof DefinitionType` test. -/
def BaseType.isDefinitionType : BaseType → Bool
  | .definitionType .. => true
  | .otherType _ => false

/-- A JSON-Schema `Definition` produced by the type formatter, as an object:
a list of schema-keyword fields with (opaquely rendered) values. -/
abbrev Definition := List (String × String)

/-- A source file: its `fileName` and its syntax tree. -/
structure SourceFile where
  fileName : String
  ast : TsNode

/-- The slice of `ts.Program` the generator uses: `getRootFileNames()` and
`getSourceFiles()` (the type checker's answers live inside `DeclInfo`). -/
structure Program where
  rootFileNames : List String
  sourceFiles : List SourceFile

/-- The external node parser: `createType(node, new Context())`.  A fresh
context is used per call, so it is a pure function of the node. -/
structure NodeParser where
  createType : TsNode → BaseType

/-- The external type formatter: `getDefinition` and `getChildren`. -/
structure TypeFormatter where
  getDefinition : BaseType → Definition
  getChildren : BaseType → List BaseType

/-- The `SchemaGenerator` instance: its constructor arguments. -/
structure Generator where
  program : Program
  nodeParser : NodeParser
  typeFormatter : TypeFormatter

/-- Everything `SchemaGenerator` can throw: `NoRootTypeError` (carrying the
requested name), the named-collision `Error` whose message is
`Type "<name>" has multiple definitions.` (carrying that name), and the crash
of the non-null symbol assertion inside `getFullName`. -/
inductive GenError where
  | noRootType (name : String)
  | multipleDefinitions (name : String)
  | missingSymbol
deriving DecidableEq

/-- The declaration index: fully-qualified name to declaration node. -/
abbrev Index := JsMap TsNode

/-! ## The declaration index builder -/

/-- SchemaGenerator.isExportType: the node's local symbol exists and has an
`exportSymbol` property. -/
def isExportType (i : DeclInfo) : Bool :=
  match i.localSymbol with
  | some b => b
  | none => false

/-- SchemaGenerator.isGenericType: `!!(node.typeParameters &&
node.typeParameters.length > 0)`.  The source casts the node to
`ts.TypeAliasDeclaration`, but the cast is compile-time only: at runtime the
`typeParameters` property of whatever declaration node was passed is read. -/
def isGenericType (i : DeclInfo) : Bool :=
  decide (0 < i.typeParams)

/-- SchemaGenerator.getFullName: `typeChecker.getFullyQualifiedName(symbolAtNode(node)!)
.replace(/".*"\./, "")`.  `none` models the crash of the `!` assertion when the
node has no symbol. -/
def getFullName (i : DeclInfo) : Option String :=
  i.symbol.map stripModuleQuote

mutual
/-- SchemaGenerator.inspectNode: on one of the four declaration kinds, return
early when the node is not exported or is generic, otherwise record the node
under its full name; on any other node, recurse into every child. -/
def inspectNode : TsNode → Index → Except GenError Index
  | .decl i, m =>
    if !isExportType i || isGenericType i then .ok m
    else
      match getFullName i with
      | none => .error .missingSymbol
      | some fq => .ok (jsSet m fq (.decl i))
  | .node cs, m => inspectKids cs m

/-- The `ts.forEachChild(node, subnode => this.inspectNode(subnode, ...))`
loop: inspect each child in order, propagating a thrown error. -/
def inspectKids : TsKids → Index → Except GenError Index
  | .nil, m => .ok m
  | .cons c cs, m =>
    match inspectNode c m with
    | .error e => .error e
    | .ok m2 => inspectKids cs m2
end

/-- SchemaGenerator.appendTypes: inspect each source file in order. -/
def appendTypes : List SourceFile → Index → Except GenError Index
  | [], types => .ok types
  | f :: fs, types =>
    match inspectNode f.ast types with
    | .error e => .error e
    | .ok t2 => appendTypes fs t2

/-- Character-list test: does `s` start with `pat`? -/
def charsStartWith : List Char → List Char → Bool
  | _, [] => true
  | [], _ :: _ => false
  | c :: s, d :: pat => c == d && charsStartWith s pat

/-- Character-list test: does `s` contain `pat` as a contiguous substring? -/
def charsContain : List Char → List Char → Bool
  | [], pat => charsStartWith [] pat
  | c :: tl, pat => charsStartWith (c :: tl) pat || charsContain tl pat

/-- JavaScript `String.prototype.includes`. -/
def strIncludes (s pat : String) : Bool := charsContain s.data pat.data

/-- SchemaGenerator.partitionFiles: the source loops over the program's source
files pushing each onto `externalFiles` when its file name contains
`/node_modules/` and onto `projectFiles` otherwise; the resulting pair is the
order-preserving partition written here with two filters. -/
def partitionFiles (p : Program) : List SourceFile × List SourceFile :=
  (p.sourceFiles.filter fun f => !strIncludes f.fileName ("/node_modules/"),
   p.sourceFiles.filter fun f => strIncludes f.fileName ("/node_modules/"))

/-! ## The root selector -/

/-- SchemaGenerator.findNamedNode: build the index over project files; if the
name is found, return its node; otherwise extend the same map with the external
files and look again; otherwise throw `NoRootTypeError`.  The source tests
`allTypes.has(fullName)` and then reads `allTypes.get(fullName)!`; this is
written as one match on the lookup. -/
def findNamedNode (g : Generator) (fullName : String) : Except GenError TsNode :=
  let parts := partitionFiles g.program
  match appendTypes parts.1 [] with
  | .error e => .error e
  | .ok allTypes =>
    match jsGet allTypes fullName with
    | some n => .ok n
    | none =>
      match appendTypes parts.2 allTypes with
      | .error e => .error e
      | .ok allTypes2 =>
        match jsGet allTypes2 fullName with
        | some n => .ok n
        | none => .error (.noRootType fullName)

/-- The else-branch of getRootNodes (wildcard, absent, or empty name): restrict
the source files to those whose name is among the program's root file names,
build the index over just those, and return the map's values in order. -/
def wildcardRootNodes (g : Generator) : Except GenError (List TsNode) :=
  let rootSourceFiles := g.program.sourceFiles.filter fun f =>
    g.program.rootFileNames.contains f.fileName
  match appendTypes rootSourceFiles [] with
  | .error e => .error e
  | .ok rootNodes => .ok (jsValues rootNodes)

/-- SchemaGenerator.getRootNodes: `if (fullName && fullName !== "*")` take the
named lookup (in JavaScript the empty string is falsy, so an empty name also
falls through to the wildcard branch), else the wildcard branch. -/
def getRootNodes (g : Generator) (fullName : Option String) : Except GenError (List TsNode) :=
  match fullName with
  | some s =>
    if s ≠ "" ∧ s ≠ "*" then
      match findNamedNode g s with
      | .error e => .error e
      | .ok n => .ok [n]
    else wildcardRootNodes g
  | none => wildcardRootNodes g

/-! ## The definition collector -/

/-- The stateful `seen`-set filter of appendRootChildDefinitions: keep the
first child with each `id`, drop later ones. -/
def dedupById (seen : List String) : List BaseType → List BaseType
  | [] => []
  | c :: cs =>
    if seen.contains c.getId then dedupById seen cs
    else c :: dedupById (c.getId :: seen) cs

/-- The `children` pipeline of appendRootChildDefinitions: ask the formatter
for the root's children, keep only `DefinitionType` instances, then deduplicate
by id with a seen-set (first occurrence wins, order preserved). -/
def childrenOf (g : Generator) (rootType : BaseType) : List BaseType :=
  dedupById [] ((g.typeFormatter.getChildren rootType).filter BaseType.isDefinitionType)

/-- The collision loop of appendRootChildDefinitions: scan the deduplicated
children building a name-to-id map; throw `Type "<name>" has multiple
definitions.` when a name is seen again with a different id — but, as in the
source (`if (previousId && child.getId() !== previousId)`), only when the
previously recorded id is truthy, i.e. present and not the empty string. -/
def collisionCheck : JsMap String → List BaseType → Except GenError Unit
  | _, [] => .ok ()
  | ids, c :: cs =>
    match jsGet ids c.getName with
    | some previousId =>
      if previousId ≠ "" ∧ c.getId ≠ previousId then .error (.multipleDefinitions c.getName)
      else collisionCheck (jsSet ids c.getName c.getId) cs
    | none => collisionCheck (jsSet ids c.getName c.getId) cs

/-- The materialization `reduce` of appendRootChildDefinitions: for each child
whose name is not yet a key of the output mapping, format its wrapped type and
insert it.  Alongside the updated mapping this returns the list of children
that were actually materialized (exactly those for which `getDefinition` was
invoked), so that call-effect claims can be stated. -/
def materialize (g : Generator) :
    List BaseType → JsMap Definition → JsMap Definition × List (String × BaseType)
  | [], defs => (defs, [])
  | c :: cs, defs =>
    if jsHas defs c.getName then materialize g cs defs
    else
      let r := materialize g cs (jsSet defs c.getName (g.typeFormatter.getDefinition c.getType))
      (r.1, (c.getName, c) :: r.2)

/-- SchemaGenerator.appendRootChildDefinitions: compute the deduplicated
children, run the collision check, then materialize into the shared mapping.
The returned pair is the updated mapping plus the materialization log. -/
def appendRootChildDefinitions (g : Generator) (rootType : BaseType)
    (childDefinitions : JsMap Definition) :
    Except GenError (JsMap Definition × List (String × BaseType)) :=
  let children := childrenOf g rootType
  match collisionCheck [] children with
  | .error e => .error e
  | .ok _ => .ok (materialize g children childDefinitions)

/-- The `rootTypes.forEach(rootType => this.appendRootChildDefinitions(rootType,
definitions))` loop of createSchema: repeated invocations against one shared
mapping, concatenating the materialization logs. -/
def collectAll (g : Generator) :
    List BaseType → JsMap Definition →
    Except GenError (JsMap Definition × List (String × BaseType))
  | [], defs => .ok (defs, [])
  | t :: ts, defs =>
    match appendRootChildDefinitions g t defs with
    | .error e => .error e
    | .ok (d2, log) =>
      match collectAll g ts d2 with
      | .error e => .error e
      | .ok (d3, log2) => .ok (d3, log ++ log2)

/-! ## Document assembly -/

/-- A top-level field value of the output document: either an (opaquely
rendered) root-definition field value, or the definitions table. -/
inductive SVal where
  | str (v : String)
  | defs (m : JsMap Definition)
deriving DecidableEq

/-- The output document, as the JavaScript object createSchema builds. -/
abbrev SchemaDoc := JsMap SVal

/-- The draft-07 meta-schema URI. -/
def draft07 : String := "http://json-schema.org/draft-07/schema#"

/-- SchemaGenerator.getRootTypeDefinition. -/
def getRootTypeDefinition (g : Generator) (rootType : BaseType) : Definition :=
  g.typeFormatter.getDefinition rootType

/-- The ternary `rootTypes.length === 1 ?
this.getRootTypeDefinition(rootTypes[0]) : {}`. -/
def rootDefinitionOf (g : Generator) : List BaseType → Definition
  | [t] => getRootTypeDefinition g t
  | _ => []

/-- The object literal `{ $schema: "...draft-07...", ...rootTypeDefinition,
definitions }`: start from the `$schema` field, spread the root definition's
fields in order (in JavaScript a spread assigns field by field, overriding an
equal key in place), then assign the `definitions` property. -/
def assembleDoc (rootTypeDefinition : Definition) (definitions : JsMap Definition) : SchemaDoc :=
  jsSet
    (jsSetAll [(("$schema"), SVal.str draft07)]
      (rootTypeDefinition.map fun p => (p.1, SVal.str p.2)))
    ("definitions") (SVal.defs definitions)

/-- SchemaGenerator.createSchema. -/
def createSchema (g : Generator) (fullName : Option String) : Except GenError SchemaDoc :=
  match getRootNodes g fullName with
  | .error e => .error e
  | .ok rootNodes =>
    let rootTypes := rootNodes.map g.nodeParser.createType
    match collectAll g rootTypes [] with
    | .error e => .error e
    | .ok (definitions, _) =>
      .ok (assembleDoc (rootDefinitionOf g rootTypes) definitions)

/-! ## Specification-side views of the index builder -/

mutual
/-- The eligible declarations of a subtree, in the pre-order in which
`inspectNode` records them (exported and, reading `typeParameters` off the
node whatever its kind, non-generic). -/
def eligibleDecls : TsNode → List DeclInfo
  | .decl i => if isExportType i && !isGenericType i then [i] else []
  | .node cs => eligibleKids cs

/-- The eligible declarations under a child list, in order. -/
def eligibleKids : TsKids → List DeclInfo
  | .nil => []
  | .cons c cs => eligibleDecls c ++ eligibleKids cs
end

/-- The eligible declarations of a file list, in discovery order. -/
def eligibleOfFiles : List SourceFile → List DeclInfo
  | [] => []
  | f :: fs => eligibleDecls f.ast ++ eligibleOfFiles fs

/-- Do all the given declarations have a bound symbol (so that the non-null
assertion inside `getFullName` cannot crash)? -/
def symbolsOk (l : List DeclInfo) : Bool := l.all fun i => i.symbol.isSome

/-- The (full name, node) records that the given eligible declarations
contribute to the index, in order. -/
def recordsOf (l : List DeclInfo) : List (String × TsNode) :=
  l.filterMap fun i => (getFullName i).map fun fq => (fq, TsNode.decl i)

/-! ## Lemmas about the map model -/


theorem jsHas_cons {α : Type} (p : String × α) (m : JsMap α) (k : String) :
    jsHas (p :: m) k = (p.1 == k || jsHas m k) := by
  simp [jsHas]

theorem jsGet_cons {α : Type} (p : String × α) (m : JsMap α) (k : String) :
    jsGet (p :: m) k = if p.1 == k then some p.2 else jsGet m k := by
  rw [jsGet, List.find?_cons]
  by_cases h : (p.1 == k) = true <;> simp [h, jsGet]

theorem jsSet_cons {α : Type} (p : String × α) (m : JsMap α) (k : String) (v : α) :
    jsSet (p :: m) k v = if p.1 == k then (k, v) :: m else p :: jsSet m k v := rfl

theorem jsHas_iff {α : Type} {m : JsMap α} {k : String} :
    jsHas m k = true ↔ k ∈ m.map Prod.fst := by
  simp [jsHas, List.any_eq_true, List.mem_map]

theorem jsHas_eq_false_iff {α : Type} {m : JsMap α} {k : String} :
    jsHas m k = false ↔ k ∉ m.map Prod.fst := by
  rw [← jsHas_iff]
  cases jsHas m k <;> simp

theorem jsHas_append {α : Type} (m l : JsMap α) (k : String) :
    jsHas (m ++ l) k = (jsHas m k || jsHas l k) := by
  simp [jsHas, List.any_append]

theorem jsGet_isSome_iff {α : Type} {m : JsMap α} {k : String} :
    (∃ v, jsGet m k = some v) ↔ jsHas m k = true := by
  induction m with
  | nil => simp [jsGet, jsHas]
  | cons p m ih =>
    rw [jsGet_cons, jsHas_cons]
    by_cases h : (p.1 == k) = true <;> simp [h, ih]

theorem jsGet_set_self {α : Type} (m : JsMap α) (k : String) (v : α) :
    jsGet (jsSet m k v) k = some v := by
  induction m with
  | nil => simp [jsSet, jsGet_cons]
  | cons p m ih =>
    rw [jsSet_cons]
    by_cases h : (p.1 == k) = true
    · rw [if_pos h, jsGet_cons]
      simp
    · rw [if_neg (by simp [h]), jsGet_cons, if_neg (by simp [h])]
      exact ih

theorem jsGet_set_ne {α : Type} (m : JsMap α) {k k' : String} (v : α) (h : k' ≠ k) :
    jsGet (jsSet m k v) k' = jsGet m k' := by
  have hb : (k == k') = false := by
    simp
    exact fun he => h he.symm
  induction m with
  | nil =>
    rw [jsSet, jsGet_cons, if_neg (by simp [hb])]
  | cons p m ih =>
    rw [jsSet_cons]
    by_cases hp : (p.1 == k) = true
    · have hp' : (p.1 == k') = false := by
        rw [show p.1 = k from by simpa using hp]
        exact hb
      rw [if_pos hp, jsGet_cons, jsGet_cons, if_neg (by simp [hb]), if_neg (by simp [hp'])]
    · rw [if_neg (by simp [hp]), jsGet_cons, jsGet_cons]
      by_cases hp' : (p.1 == k') = true
      · rw [if_pos hp', if_pos hp']
      · rw [if_neg (by simp [hp']), if_neg (by simp [hp'])]
        exact ih

theorem keys_set {α : Type} (m : JsMap α) (k : String) (v : α) :
    (jsSet m k v).map Prod.fst =
      if jsHas m k = true then m.map Prod.fst else m.map Prod.fst ++ [k] := by
  induction m with
  | nil => simp [jsSet, jsHas]
  | cons p m ih =>
    rw [jsSet_cons, jsHas_cons]
    by_cases h : (p.1 == k) = true
    · rw [if_pos h, if_pos (by simp [h])]
      have he : p.1 = k := by simpa using h
      simp [he]
    · have hb : (p.1 == k) = false := by simpa using h
      rw [if_neg (by simp [hb])]
      simp only [List.map_cons]
      rw [ih, hb, Bool.false_or]
      by_cases hm : jsHas m k = true
      · rw [if_pos hm, if_pos hm]
      · rw [if_neg hm, if_neg hm, List.cons_append]

theorem mem_keys_set {α : Type} (m : JsMap α) (k k' : String) (v : α) :
    k' ∈ (jsSet m k v).map Prod.fst ↔ (k' = k ∨ k' ∈ m.map Prod.fst) := by
  rw [keys_set]
  by_cases hm : jsHas m k = true
  · rw [if_pos hm]
    constructor
    · exact Or.inr
    · rintro (rfl | h)
      · exact jsHas_iff.mp hm
      · exact h
  · rw [if_neg hm]
    simp [List.mem_append]
    tauto

theorem jsHas_set_iff {α : Type} {m : JsMap α} {k k' : String} {v : α} :
    jsHas (jsSet m k v) k' = true ↔ (k' = k ∨ jsHas m k' = true) := by
  simp only [jsHas_iff]
  exact mem_keys_set m k k' v

theorem jsSet_of_not_has {α : Type} {m : JsMap α} {k : String} (v : α)
    (h : jsHas m k = false) :
    jsSet m k v = m ++ [(k, v)] := by
  induction m with
  | nil => rfl
  | cons p m ih =>
    rw [jsHas_cons, Bool.or_eq_false_iff] at h
    rw [jsSet_cons, if_neg (by simp [h.1]), ih h.2, List.cons_append]

theorem jsSetAll_append {α : Type} (m : JsMap α) (l1 l2 : List (String × α)) :
    jsSetAll m (l1 ++ l2) = jsSetAll (jsSetAll m l1) l2 := by
  induction l1 generalizing m with
  | nil => rfl
  | cons p l1 ih => simp [jsSetAll, ih]

theorem jsGet_setAll_of_not_mem {α : Type} {l : List (String × α)} {k : String}
    (m : JsMap α) (h : k ∉ l.map Prod.fst) :
    jsGet (jsSetAll m l) k = jsGet m k := by
  induction l generalizing m with
  | nil => rfl
  | cons p l ih =>
    rw [List.map_cons] at h
    have h1 : k ≠ p.1 := fun he => h (he ▸ List.mem_cons_self _ _)
    have h2 : k ∉ l.map Prod.fst := fun hm => h (List.mem_cons_of_mem _ hm)
    rw [jsSetAll, ih _ h2, jsGet_set_ne _ _ h1]

theorem mem_keys_setAll {α : Type} {l : List (String × α)} (m : JsMap α) (k : String) :
    k ∈ (jsSetAll m l).map Prod.fst ↔ (k ∈ m.map Prod.fst ∨ k ∈ l.map Prod.fst) := by
  induction l generalizing m with
  | nil => simp [jsSetAll]
  | cons p l ih =>
    rw [jsSetAll, ih, mem_keys_set]
    simp only [List.map_cons, List.mem_cons]
    tauto

theorem jsHas_setAll_iff {α : Type} {l : List (String × α)} {m : JsMap α} {k : String} :
    jsHas (jsSetAll m l) k = true ↔ (jsHas m k = true ∨ k ∈ l.map Prod.fst) := by
  simp only [jsHas_iff]
  exact mem_keys_setAll m k

theorem jsSetAll_of_fresh {α : Type} {l : List (String × α)} {m : JsMap α}
    (hnd : (l.map Prod.fst).Nodup) (hdisj : ∀ x ∈ l.map Prod.fst, jsHas m x = false) :
    jsSetAll m l = m ++ l := by
  induction l generalizing m with
  | nil => simp [jsSetAll]
  | cons p l ih =>
    rw [List.map_cons, List.nodup_cons] at hnd
    have hfresh : ∀ x ∈ l.map Prod.fst, jsHas (m ++ [(p.1, p.2)]) x = false := by
      intro x hx
      rw [jsHas_append, Bool.or_eq_false_iff]
      refine ⟨hdisj x (by simp [hx]), ?_⟩
      have hxne : x ≠ p.1 := fun he => hnd.1 (he ▸ hx)
      rw [jsHas_eq_false_iff]
      simpa using hxne
    rw [jsSetAll, jsSet_of_not_has _ (hdisj p.1 (by simp)), ih hnd.2 hfresh]
    simp

/-! ## Characterizing the index builder -/

/-- The outcome of running the index builder over the eligible declarations
`el` starting from map `m`: all records get set when every eligible
declaration has a bound symbol; otherwise the missing-symbol crash. -/
def inspectOutcome (el : List DeclInfo) (m : Index) : Except GenError Index :=
  if symbolsOk el then .ok (jsSetAll m (recordsOf el)) else .error .missingSymbol

theorem symbolsOk_append (l1 l2 : List DeclInfo) :
    symbolsOk (l1 ++ l2) = (symbolsOk l1 && symbolsOk l2) := by
  simp [symbolsOk, List.all_append]

theorem recordsOf_append (l1 l2 : List DeclInfo) :
    recordsOf (l1 ++ l2) = recordsOf l1 ++ recordsOf l2 := by
  simp [recordsOf, List.filterMap_append]

theorem inspectOutcome_append (l1 l2 : List DeclInfo) (m : Index) :
    inspectOutcome (l1 ++ l2) m =
      match inspectOutcome l1 m with
      | .error e => .error e
      | .ok m2 => inspectOutcome l2 m2 := by
  cases h1 : symbolsOk l1 <;> cases h2 : symbolsOk l2 <;>
    simp [inspectOutcome, symbolsOk_append, recordsOf_append, jsSetAll_append, h1, h2]

theorem inspect_spec :
    ∀ n : TsNode, ∀ m : Index, inspectNode n m = inspectOutcome (eligibleDecls n) m :=
  @TsNode.rec
    (fun n => ∀ m : Index, inspectNode n m = inspectOutcome (eligibleDecls n) m)
    (fun ks => ∀ m : Index, inspectKids ks m = inspectOutcome (eligibleKids ks) m)
    (fun i => by
      intro m
      by_cases hx : isExportType i = true
      · by_cases hg : isGenericType i = true
        · simp [inspectNode, eligibleDecls, hx, hg, inspectOutcome, symbolsOk, recordsOf,
            jsSetAll]
        · cases hs : i.symbol with
          | none =>
            simp [inspectNode, eligibleDecls, hx, hg, inspectOutcome, symbolsOk, getFullName,
              hs]
          | some s =>
            simp [inspectNode, eligibleDecls, hx, hg, inspectOutcome, symbolsOk, getFullName,
              hs, recordsOf, jsSetAll]
      · simp [inspectNode, eligibleDecls, hx, inspectOutcome, symbolsOk, recordsOf, jsSetAll])
    (fun cs ih => by
      intro m
      simpa [inspectNode, eligibleDecls] using ih m)
    (by
      intro m
      simp [inspectKids, eligibleKids, inspectOutcome, symbolsOk, recordsOf, jsSetAll])
    (fun c cs ih1 ih2 => by
      intro m
      simp only [inspectKids, eligibleKids]
      rw [ih1 m, inspectOutcome_append]
      cases h : inspectOutcome (eligibleDecls c) m with
      | error e => rfl
      | ok m2 => exact ih2 m2)

theorem inspectKids_spec :
    ∀ ks : TsKids, ∀ m : Index, inspectKids ks m = inspectOutcome (eligibleKids ks) m := by
  intro ks m
  have h := inspect_spec (.node ks) m
  simpa [inspectNode, eligibleDecls] using h

theorem appendTypes_spec (files : List SourceFile) :
    ∀ m : Index, appendTypes files m = inspectOutcome (eligibleOfFiles files) m := by
  induction files with
  | nil =>
    intro m
    simp [appendTypes, eligibleOfFiles, inspectOutcome, symbolsOk, recordsOf, jsSetAll]
  | cons f fs ih =>
    intro m
    simp only [appendTypes, eligibleOfFiles]
    rw [inspect_spec f.ast m, inspectOutcome_append]
    cases h : inspectOutcome (eligibleDecls f.ast) m with
    | error e => rfl
    | ok m2 => exact ih m2

/-! ## Lemmas about the quote-stripping replace -/

theorem quoteDotHead_of_ne {c : Char} (l : List Char) (h : c ≠ '"') :
    quoteDotHead c l = none := by
  cases l with
  | nil => rfl
  | cons d rem => simp [quoteDotHead, h]

theorem matchClose_of_no_quote {l : List Char} (h : '"' ∉ l) : matchClose l = none := by
  induction l with
  | nil => rfl
  | cons c cs ih =>
    rw [List.mem_cons] at h
    push_neg at h
    rw [matchClose]
    by_cases hn : c = '\n'
    · rw [if_pos hn]
    · rw [if_neg hn, ih h.2, quoteDotHead_of_ne _ (fun he => h.1 he.symm)]

theorem matchClose_closes {p rest : List Char}
    (hp : '"' ∉ p) (hn : '\n' ∉ p) (hr : '"' ∉ rest) :
    matchClose (p ++ '"' :: '.' :: rest) = some rest := by
  induction p with
  | nil =>
    rw [List.nil_append, matchClose, if_neg (by decide)]
    have hnone : matchClose ('.' :: rest) = none :=
      matchClose_of_no_quote (by
        rw [List.mem_cons]
        push_neg
        exact ⟨by decide, hr⟩)
    rw [hnone]
    simp [quoteDotHead]
  | cons a p ih =>
    rw [List.mem_cons] at hp hn
    push_neg at hp hn
    rw [List.cons_append, matchClose, if_neg (fun he => hn.1 he.symm),
      ih hp.2 hn.2]

theorem replaceQuoteDot_of_no_quote {l : List Char} (h : '"' ∉ l) :
    replaceQuoteDot l = l := by
  induction l with
  | nil => rfl
  | cons c cs ih =>
    rw [List.mem_cons] at h
    push_neg at h
    rw [replaceQuoteDot, if_neg (fun he => h.1 he.symm), ih h.2]

theorem replaceQuoteDot_strips {p rest : List Char}
    (hp : '"' ∉ p) (hn : '\n' ∉ p) (hr : '"' ∉ rest) :
    replaceQuoteDot ('"' :: (p ++ '"' :: '.' :: rest)) = rest := by
  rw [replaceQuoteDot, if_pos rfl, matchClose_closes hp hn hr]

/-! ## Claim C8 -/

/-- C8: for an indexed declaration, `getFullName` returns the type checker's
fully qualified name of the declaration's symbol with the leading module-path
quoting prefix (a quoted file path followed by a dot) removed and nothing else
altered: a quote-free name is returned unchanged, a name of the shape
`"path".rest` (with the quote characters occurring only around the path, and
no newline inside the path) is returned as `rest`, and hence the resulting
name does not depend on which quoted containing module the symbol was reached
through. -/
theorem claim_c8 :
    (∀ (i : DeclInfo) (s : String), i.symbol = some s → '"' ∉ s.data →
      getFullName i = some s) ∧
    (∀ (i : DeclInfo) (path rest : List Char),
      i.symbol = some ⟨'"' :: (path ++ '"' :: '.' :: rest)⟩ →
      '"' ∉ path → '\n' ∉ path → '"' ∉ rest →
      getFullName i = some ⟨rest⟩) ∧
    (∀ (i1 i2 : DeclInfo) (p1 p2 rest : List Char),
      i1.symbol = some ⟨'"' :: (p1 ++ '"' :: '.' :: rest)⟩ →
      i2.symbol = some ⟨'"' :: (p2 ++ '"' :: '.' :: rest)⟩ →
      '"' ∉ p1 → '\n' ∉ p1 → '"' ∉ p2 → '\n' ∉ p2 → '"' ∉ rest →
      getFullName i1 = getFullName i2) := by
  have hplain : ∀ (i : DeclInfo) (s : String), i.symbol = some s → '"' ∉ s.data →
      getFullName i = some s := by
    intro i s hs hq
    rw [getFullName, hs, Option.map_some']
    obtain ⟨l⟩ := s
    rw [stripModuleQuote]
    rw [show String.data ⟨l⟩ = l from rfl] at hq ⊢
    rw [replaceQuoteDot_of_no_quote hq]
  have hstrip : ∀ (i : DeclInfo) (path rest : List Char),
      i.symbol = some ⟨'"' :: (path ++ '"' :: '.' :: rest)⟩ →
      '"' ∉ path → '\n' ∉ path → '"' ∉ rest →
      getFullName i = some ⟨rest⟩ := by
    intro i path rest hs hp hn hr
    rw [getFullName, hs, Option.map_some', stripModuleQuote]
    rw [show String.data ⟨'"' :: (path ++ '"' :: '.' :: rest)⟩
        = '"' :: (path ++ '"' :: '.' :: rest) from rfl]
    rw [replaceQuoteDot_strips hp hn hr]
  refine ⟨hplain, hstrip, ?_⟩
  intro i1 i2 p1 p2 rest h1 h2 hq1 hn1 hq2 hn2 hr
  rw [hstrip i1 p1 rest h1 hq1 hn1 hr, hstrip i2 p2 rest h2 hq2 hn2 hr]

/-- Witness for C8 at concrete inputs: the checker name `"/src/foo".MyType`
is stripped to `MyType`, the quote-free name `Outer.MyType` is kept, and two
re-export paths agree. -/
theorem claim_c8_witness :
    getFullName ⟨.interfaceDecl, some true, some ("\"/src/foo\".MyType"), 0⟩
        = some ("MyType") ∧
    getFullName ⟨.classDecl, some true, some ("Outer.MyType"), 0⟩
        = some ("Outer.MyType") ∧
    getFullName ⟨.interfaceDecl, some true, some ("\"/src/foo\".MyType"), 0⟩
        = getFullName ⟨.interfaceDecl, some true, some ("\"/lib/bar\".MyType"), 0⟩ := by
  refine ⟨?_, ?_, ?_⟩
  · have h := claim_c8.2.1 ⟨.interfaceDecl, some true, some ("\"/src/foo\".MyType"), 0⟩
      ("/src/foo").data ("MyType").data (by decide) (by decide) (by decide) (by decide)
    exact h
  · exact claim_c8.1 ⟨.classDecl, some true, some ("Outer.MyType"), 0⟩ ("Outer.MyType")
      rfl (by decide)
  · exact claim_c8.2.2 ⟨.interfaceDecl, some true, some ("\"/src/foo\".MyType"), 0⟩
      ⟨.interfaceDecl, some true, some ("\"/lib/bar\".MyType"), 0⟩
      ("/src/foo").data ("/lib/bar").data ("MyType").data
      (by decide) (by decide) (by decide) (by decide) (by decide) (by decide) (by decide)

/-! ## Lemmas about appendTypes outcomes -/

theorem appendTypes_ok {files : List SourceFile} {m r : Index}
    (h : appendTypes files m = .ok r) :
    symbolsOk (eligibleOfFiles files) = true ∧
      r = jsSetAll m (recordsOf (eligibleOfFiles files)) := by
  rw [appendTypes_spec] at h
  by_cases hs : symbolsOk (eligibleOfFiles files) = true
  · rw [inspectOutcome, if_pos hs] at h
    exact ⟨hs, by injection h with h; exact h.symm⟩
  · rw [inspectOutcome, if_neg hs] at h
    cases h

theorem appendTypes_of_symbolsOk {files : List SourceFile} (m : Index)
    (hs : symbolsOk (eligibleOfFiles files) = true) :
    appendTypes files m = .ok (jsSetAll m (recordsOf (eligibleOfFiles files))) := by
  rw [appendTypes_spec, inspectOutcome, if_pos hs]

theorem jsGet_eq_none_of_not_has {α : Type} {m : JsMap α} {k : String}
    (h : jsHas m k = false) : jsGet m k = none := by
  cases hg : jsGet m k with
  | none => rfl
  | some v =>
    have := jsGet_isSome_iff.mp ⟨v, hg⟩
    rw [h] at this
    cases this

theorem jsHas_setAll_nil_iff {α : Type} {l : List (String × α)} {k : String} :
    jsHas (jsSetAll ([] : JsMap α) l) k = true ↔ k ∈ l.map Prod.fst := by
  rw [jsHas_setAll_iff]
  simp [jsHas]

/-! ## Claim C2 -/

/-- C2: when a qualified name is present in both the index built over project
files and the index built over external files, `findNamedNode` returns the
project file's declaration; moreover the result only depends on the project
files whenever the project index already contains the name (the external index
is only consulted on a project miss). -/
theorem claim_c2 :
    (∀ (g : Generator) (name : String) (dp : TsNode) (mp me : Index),
      appendTypes (partitionFiles g.program).1 [] = .ok mp →
      jsGet mp name = some dp →
      appendTypes (partitionFiles g.program).2 [] = .ok me →
      jsHas me name = true →
      findNamedNode g name = .ok dp) ∧
    (∀ (g1 g2 : Generator) (name : String) (mp : Index),
      (partitionFiles g1.program).1 = (partitionFiles g2.program).1 →
      appendTypes (partitionFiles g1.program).1 [] = .ok mp →
      jsHas mp name = true →
      findNamedNode g1 name = findNamedNode g2 name) := by
  constructor
  · intro g name dp mp me hproj hget hext hhas
    simp only [findNamedNode, hproj, hget]
  · intro g1 g2 name mp heq hproj hhas
    obtain ⟨d, hd⟩ := jsGet_isSome_iff.mpr hhas
    have hproj2 : appendTypes (partitionFiles g2.program).1 [] = .ok mp := by
      rw [← heq]
      exact hproj
    simp only [findNamedNode, hproj, hproj2, hd]

/-- A project-file interface named Foo. -/
def fooDecl : DeclInfo := ⟨.interfaceDecl, some true, some ("Foo"), 0⟩

/-- A dependency-file class, also reaching the qualified name Foo. -/
def fooDeclExt : DeclInfo := ⟨.classDecl, some true, some ("Foo"), 0⟩

/-- A parser stub for fixtures whose claims do not involve parsing. -/
def trivialParser : NodeParser := ⟨fun _ => .otherType ("")⟩

/-- A formatter stub for fixtures whose claims do not involve formatting. -/
def trivialFormatter : TypeFormatter := ⟨fun _ => [], fun _ => []⟩

/-- A program with a project file declaring Foo and a dependency file under
`/node_modules/` declaring another Foo. -/
def genC2 : Generator :=
  ⟨⟨[], [⟨"/src/a.ts", .node (.cons (.decl fooDecl) .nil)⟩,
         ⟨"/node_modules/dep/index.ts", .node (.cons (.decl fooDeclExt) .nil)⟩]⟩,
    trivialParser, trivialFormatter⟩

/-- Witness for C2: with Foo declared in both a project file and a dependency
file, looking up Foo returns the project declaration. -/
theorem claim_c2_witness : findNamedNode genC2 ("Foo") = .ok (.decl fooDecl) :=
  claim_c2.1 genC2 ("Foo") (.decl fooDecl)
    [(("Foo"), .decl fooDecl)] [(("Foo"), .decl fooDeclExt)] rfl rfl rfl rfl

/-! ## Claim C6 -/

/-- C6: `findNamedNode` raises the no-root-type error carrying the requested
identifier exactly when the name is absent from both the project-file index
and the external-file index; when it is present in either, a declaration is
returned and nothing is raised. -/
theorem claim_c6 (g : Generator) (name : String) (mp me : Index)
    (hproj : appendTypes (partitionFiles g.program).1 [] = .ok mp)
    (hext : appendTypes (partitionFiles g.program).2 [] = .ok me) :
    ((findNamedNode g name = .error (.noRootType name)) ↔
      (jsHas mp name = false ∧ jsHas me name = false)) ∧
    ((jsHas mp name = true ∨ jsHas me name = true) →
      ∃ d, findNamedNode g name = .ok d) := by
  obtain ⟨hsp, hmp⟩ := appendTypes_ok hproj
  obtain ⟨hse, hme⟩ := appendTypes_ok hext
  have hphase2 := @appendTypes_of_symbolsOk (partitionFiles g.program).2 mp hse
  have hmateme : ∀ k, jsHas me k = true ↔
      k ∈ (recordsOf (eligibleOfFiles (partitionFiles g.program).2)).map Prod.fst := by
    intro k
    rw [hme]
    exact jsHas_setAll_nil_iff
  by_cases hP : jsHas mp name = true
  · obtain ⟨d, hd⟩ := jsGet_isSome_iff.mpr hP
    have hres : findNamedNode g name = .ok d := by
      simp only [findNamedNode, hproj, hd]
    constructor
    · rw [hres]
      constructor
      · intro h
        cases h
      · rintro ⟨h1, h2⟩
        rw [hP] at h1
        cases h1
    · intro _
      exact ⟨d, hres⟩
  · have hPf : jsHas mp name = false := by
      cases h : jsHas mp name
      · rfl
      · exact absurd h hP
    have hgetP : jsGet mp name = none := jsGet_eq_none_of_not_has hPf
    by_cases hE : jsHas me name = true
    · have hmerged : jsHas (jsSetAll mp
          (recordsOf (eligibleOfFiles (partitionFiles g.program).2))) name = true := by
        rw [jsHas_setAll_iff]
        exact Or.inr ((hmateme name).mp hE)
      obtain ⟨d, hd⟩ := jsGet_isSome_iff.mpr hmerged
      have hres : findNamedNode g name = .ok d := by
        simp only [findNamedNode, hproj, hgetP, hphase2, hd]
      constructor
      · rw [hres]
        constructor
        · intro h
          cases h
        · rintro ⟨h1, h2⟩
          rw [hE] at h2
          cases h2
      · intro _
        exact ⟨d, hres⟩
    · have hEf : jsHas me name = false := by
        cases h : jsHas me name
        · rfl
        · exact absurd h hE
      have hmerged : jsHas (jsSetAll mp
          (recordsOf (eligibleOfFiles (partitionFiles g.program).2))) name = false := by
        rw [jsHas_eq_false_iff]
        intro hmem
        rcases (mem_keys_setAll mp name).mp hmem with h | h
        · rw [jsHas_iff.mpr h] at hPf
          cases hPf
        · rw [(hmateme name).mpr h] at hEf
          cases hEf
      have hgetM := jsGet_eq_none_of_not_has hmerged
      have hres : findNamedNode g name = .error (.noRootType name) := by
        simp only [findNamedNode, hproj, hgetP, hphase2, hgetM]
      constructor
      · rw [hres]
        constructor
        · intro _
          exact ⟨hPf, hEf⟩
        · intro _
          rfl
      · rintro (h | h)
        · rw [hPf] at h
          cases h
        · rw [hEf] at h
          cases h

/-- A program declaring only the exported interface Foo in a project file. -/
def genC6 : Generator :=
  ⟨⟨[], [⟨"/src/a.ts", .node (.cons (.decl fooDecl) .nil)⟩]⟩,
    trivialParser, trivialFormatter⟩

/-- Witness for C6: the name Bar is in neither index, so the lookup fails with
the no-root-type error carrying Bar; the name Foo is present, so it succeeds. -/
theorem claim_c6_witness :
    findNamedNode genC6 ("Bar") = .error (.noRootType ("Bar")) ∧
    (∃ d, findNamedNode genC6 ("Foo") = .ok d) := by
  constructor
  · exact (claim_c6 genC6 ("Bar") [(("Foo"), .decl fooDecl)] [] rfl rfl).1.mpr
      ⟨rfl, rfl⟩
  · exact (claim_c6 genC6 ("Foo") [(("Foo"), .decl fooDecl)] [] rfl rfl).2
      (Or.inl rfl)

/-! ## Claim C4 -/

/-- C4 counterexample: an exported interface with one type parameter.  The
claim states that for non-alias declarations exportedness suffices for being
recorded, but the source applies the `typeParameters` test to the node
whatever its kind (the `as ts.TypeAliasDeclaration` cast is erased at
runtime), so this exported interface declaration is not recorded: the index
stays empty. -/
theorem claim_c4_cex :
    isExportType ⟨.interfaceDecl, some true, some ("Foo"), 1⟩ = true ∧
    (⟨.interfaceDecl, some true, some ("Foo"), 1⟩ : DeclInfo).kind ≠ DeclKind.typeAliasDecl ∧
    inspectNode (.decl ⟨.interfaceDecl, some true, some ("Foo"), 1⟩) [] = .ok [] :=
  ⟨rfl, by decide, rfl⟩

/-- C4 (amended): a declaration node of one of the four kinds is recorded in
the declaration index if and only if it is exported and declares zero type
parameters — the zero-type-parameters requirement applying to every kind, not
only to type aliases. -/
theorem claim_c4 (i : DeclInfo) (m : Index) (s : String) (hs : i.symbol = some s) :
    inspectNode (.decl i) m =
      .ok (if isExportType i = true ∧ i.typeParams = 0
           then jsSet m (stripModuleQuote s) (.decl i) else m) := by
  rw [inspect_spec]
  by_cases hx : isExportType i = true
  · by_cases hg : i.typeParams = 0
    · have hgen : isGenericType i = false := by simp [isGenericType, hg]
      simp [eligibleDecls, hx, hgen, inspectOutcome, symbolsOk, hs, recordsOf, getFullName,
        jsSetAll, hg]
    · have hgen : isGenericType i = true := by
        simp [isGenericType]
        omega
      simp [eligibleDecls, hx, hgen, inspectOutcome, symbolsOk, recordsOf, jsSetAll, hg]
  · have hx' : isExportType i = false := by
      cases h : isExportType i
      · rfl
      · exact absurd h hx
    simp [eligibleDecls, hx', inspectOutcome, symbolsOk, recordsOf, jsSetAll, hx]

/-- Witness for C4: an exported non-generic interface is recorded under its
name; an exported type alias with two type parameters is skipped. -/
theorem claim_c4_witness :
    inspectNode (.decl fooDecl) [] = .ok [(("Foo"), .decl fooDecl)] ∧
    inspectNode (.decl ⟨.typeAliasDecl, some true, some ("Alias"), 2⟩) [] = .ok [] := by
  constructor
  · rw [claim_c4 fooDecl [] ("Foo") rfl]
    rfl
  · rw [claim_c4 ⟨.typeAliasDecl, some true, some ("Alias"), 2⟩ [] ("Alias") rfl]
    rfl

/-! ## Claim C9 -/

theorem eligibleDecls_export :
    ∀ n : TsNode, ∀ i ∈ eligibleDecls n, isExportType i = true :=
  @TsNode.rec (fun n => ∀ i ∈ eligibleDecls n, isExportType i = true)
    (fun ks => ∀ i ∈ eligibleKids ks, isExportType i = true)
    (fun j => by
      intro i hi
      simp only [eligibleDecls] at hi
      by_cases hc : (isExportType j && !isGenericType j) = true
      · rw [if_pos hc] at hi
        rw [List.mem_singleton] at hi
        subst hi
        rw [Bool.and_eq_true] at hc
        exact hc.1
      · rw [if_neg hc] at hi
        cases hi)
    (fun cs ih => by
      intro i hi
      simp only [eligibleDecls] at hi
      exact ih i hi)
    (by
      intro i hi
      simp only [eligibleKids] at hi
      cases hi)
    (fun c cs ih1 ih2 => by
      intro i hi
      simp only [eligibleKids, List.mem_append] at hi
      rcases hi with h | h
      · exact ih1 i h
      · exact ih2 i h)

theorem eligibleOfFiles_export (files : List SourceFile) :
    ∀ i ∈ eligibleOfFiles files, isExportType i = true := by
  induction files with
  | nil =>
    intro i hi
    cases hi
  | cons f fs ih =>
    intro i hi
    simp only [eligibleOfFiles, List.mem_append] at hi
    rcases hi with h | h
    · exact eligibleDecls_export f.ast i h
    · exact ih i h

theorem localSymbol_isSome_of_export {i : DeclInfo} (h : isExportType i = true) :
    i.localSymbol.isSome = true := by
  cases hl : i.localSymbol with
  | none =>
    rw [isExportType, hl] at h
    cases h
  | some b => rfl

theorem symbolsOk_of_binder {l : List DeclInfo}
    (hexp : ∀ i ∈ l, isExportType i = true)
    (h : ∀ i ∈ l, i.localSymbol.isSome = true → i.symbol.isSome = true) :
    symbolsOk l = true := by
  rw [symbolsOk, List.all_eq_true]
  intro i hi
  exact h i hi (localSymbol_isSome_of_export (hexp i hi))

/-- C9: building the declaration index is total.  Under the binder invariant
of the symbol-resolution service — a declaration node carrying a local symbol
also carries a bound symbol — `inspectNode` and `appendTypes` always return a
map and never raise: in particular the non-null symbol assertion inside
`getFullName` cannot fail for a declaration that passed the export check,
because passing the export check means the local symbol is present. -/
theorem claim_c9 :
    (∀ (n : TsNode) (m : Index),
      (∀ i ∈ eligibleDecls n, i.localSymbol.isSome = true → i.symbol.isSome = true) →
      ∃ m2, inspectNode n m = .ok m2) ∧
    (∀ (files : List SourceFile) (m : Index),
      (∀ i ∈ eligibleOfFiles files, i.localSymbol.isSome = true → i.symbol.isSome = true) →
      ∃ m2, appendTypes files m = .ok m2) := by
  constructor
  · intro n m h
    have hs : symbolsOk (eligibleDecls n) = true :=
      symbolsOk_of_binder (eligibleDecls_export n) h
    rw [inspect_spec, inspectOutcome, if_pos hs]
    exact ⟨_, rfl⟩
  · intro files m h
    have hs : symbolsOk (eligibleOfFiles files) = true :=
      symbolsOk_of_binder (eligibleOfFiles_export files) h
    rw [appendTypes_spec, inspectOutcome, if_pos hs]
    exact ⟨_, rfl⟩

/-- Witness for C9 at a concrete tree: a source file holding an exported
interface, a non-exported one and a nested plain node. -/
theorem claim_c9_witness :
    ∃ m2, inspectNode
      (.node (.cons (.decl fooDecl)
        (.cons (.node (.cons (.decl ⟨.enumDecl, none, none, 0⟩) .nil)) .nil))) [] = .ok m2 :=
  claim_c9.1
    (.node (.cons (.decl fooDecl)
      (.cons (.node (.cons (.decl ⟨.enumDecl, none, none, 0⟩) .nil)) .nil))) [] (by decide)

/-! ## Claim C5 -/

/-- A second exported declaration whose stripped qualified name is also Foo
(the same simple name reached from another file). -/
def dupFooB : DeclInfo := ⟨.classDecl, some true, some ("Foo"), 0⟩

/-- A root-file program with two distinct eligible declarations that share the
qualified name Foo. -/
def genC5 : Generator :=
  ⟨⟨[("/r.ts")],
    [⟨"/r.ts", .node (.cons (.decl fooDecl) (.cons (.decl dupFooB) .nil))⟩]⟩,
    trivialParser, trivialFormatter⟩

/-- C5 counterexample: the designated root file contains two distinct eligible
declarations (an interface Foo and a class Foo, both exported and non-generic),
but the wildcard root query returns only one node — the later declaration,
which silently overwrote the earlier one under their shared map key — so not
every eligible declaration appears in the result. -/
theorem claim_c5_cex :
    eligibleOfFiles (genC5.program.sourceFiles.filter fun f =>
        genC5.program.rootFileNames.contains f.fileName) = [fooDecl, dupFooB] ∧
    fooDecl ≠ dupFooB ∧
    getRootNodes genC5 none = .ok [.decl dupFooB] :=
  ⟨rfl, by decide, rfl⟩

/-- C5 (amended): for a wildcard or absent root query the index is built over
exactly the program's designated root files, and the returned nodes are the
values of that index in discovery order; the index keeps one declaration per
qualified name (a later same-named declaration overwrites an earlier one in
place), so when the eligible declarations of the root files have pairwise
distinct qualified names, every one of them is returned exactly once, in
discovery order (source-file order, then tree pre-order). -/
theorem claim_c5 (g : Generator)
    (hwf : symbolsOk (eligibleOfFiles (g.program.sourceFiles.filter fun f =>
        g.program.rootFileNames.contains f.fileName)) = true)
    (hnd : ((recordsOf (eligibleOfFiles (g.program.sourceFiles.filter fun f =>
        g.program.rootFileNames.contains f.fileName))).map Prod.fst).Nodup) :
    getRootNodes g none = .ok ((recordsOf (eligibleOfFiles
        (g.program.sourceFiles.filter fun f =>
          g.program.rootFileNames.contains f.fileName))).map Prod.snd) ∧
    getRootNodes g (some ("*")) = getRootNodes g none := by
  have hfiles := @appendTypes_of_symbolsOk
    (g.program.sourceFiles.filter fun f =>
      g.program.rootFileNames.contains f.fileName) [] hwf
  have hflat : jsSetAll ([] : Index) (recordsOf (eligibleOfFiles
      (g.program.sourceFiles.filter fun f =>
        g.program.rootFileNames.contains f.fileName))) =
      recordsOf (eligibleOfFiles (g.program.sourceFiles.filter fun f =>
        g.program.rootFileNames.contains f.fileName)) := by
    rw [@jsSetAll_of_fresh TsNode _ [] hnd (fun x _ => rfl)]
    rfl
  constructor
  · simp only [getRootNodes, wildcardRootNodes, hfiles, hflat, jsValues]
  · simp [getRootNodes]

/-- An exported interface named Bar. -/
def barDecl : DeclInfo := ⟨.interfaceDecl, some true, some ("Bar"), 0⟩

/-- A root-file program with two eligible declarations of distinct names. -/
def genC5w : Generator :=
  ⟨⟨[("/r.ts")],
    [⟨"/r.ts", .node (.cons (.decl fooDecl) (.cons (.decl barDecl) .nil))⟩]⟩,
    trivialParser, trivialFormatter⟩

/-- Witness for C5 (amended) at a concrete program: both eligible
declarations come back, in discovery order, for the absent and the wildcard
query alike. -/
theorem claim_c5_witness :
    getRootNodes genC5w none = .ok [.decl fooDecl, .decl barDecl] ∧
    getRootNodes genC5w (some ("*")) = getRootNodes genC5w none := by
  have h := claim_c5 genC5w (by decide) (by decide)
  exact ⟨h.1.trans rfl, h.2⟩

/-! ## Claim C10 -/

/-- C10: with a wildcard or absent root query over root files containing no
eligible declaration, `createSchema` succeeds and returns the document with
just the draft-07 `$schema` field and an empty definitions table — zero roots
take the same branch as multiple roots, so no root fields are spread. -/
theorem claim_c10 (g : Generator) (q : Option String)
    (hq : q = none ∨ q = some ("*"))
    (hempty : eligibleOfFiles (g.program.sourceFiles.filter fun f =>
        g.program.rootFileNames.contains f.fileName) = []) :
    createSchema g q = .ok [(("$schema"), SVal.str draft07), (("definitions"), SVal.defs [])] := by
  have hfiles : appendTypes (g.program.sourceFiles.filter fun f =>
      g.program.rootFileNames.contains f.fileName) [] = .ok [] := by
    rw [appendTypes_spec, hempty]
    rfl
  have hwild : wildcardRootNodes g = .ok [] := by
    simp only [wildcardRootNodes, hfiles]
    rfl
  have hroot : getRootNodes g q = .ok [] := by
    rcases hq with rfl | rfl
    · simpa [getRootNodes] using hwild
    · simpa [getRootNodes] using hwild
  simp only [createSchema, hroot]
  rfl

/-- Witness for C10: an empty program, absent root query. -/
theorem claim_c10_witness :
    createSchema ⟨⟨[], []⟩, trivialParser, trivialFormatter⟩ none
      = .ok [(("$schema"), SVal.str draft07), (("definitions"), SVal.defs [])] :=
  claim_c10 ⟨⟨[], []⟩, trivialParser, trivialFormatter⟩ none (Or.inl rfl) rfl

/-! ## Lemmas about the collision check -/

theorem collisionCheck_cons_ok {ids : JsMap String} {c : BaseType} {cs : List BaseType}
    (hok : collisionCheck ids (c :: cs) = .ok ()) :
    collisionCheck (jsSet ids c.getName c.getId) cs = .ok () ∧
    (∀ p, jsGet ids c.getName = some p → p ≠ "" → c.getId = p) := by
  simp only [collisionCheck] at hok
  cases hprev : jsGet ids c.getName with
  | none =>
    simp only [hprev] at hok
    refine ⟨hok, ?_⟩
    intro p hp
    cases hp
  | some p0 =>
    simp only [hprev] at hok
    by_cases hcol : p0 ≠ "" ∧ c.getId ≠ p0
    · rw [if_pos hcol] at hok
      cases hok
    · rw [if_neg hcol] at hok
      push_neg at hcol
      refine ⟨hok, ?_⟩
      intro p hp hpne
      injection hp with hp
      subst hp
      exact hcol hpne

theorem collisionCheck_map_agree :
    ∀ (cs : List BaseType) (ids : JsMap String),
      collisionCheck ids cs = .ok () →
      ∀ n idv, jsGet ids n = some idv → idv ≠ "" →
        ∀ c ∈ cs, c.getName = n → c.getId = idv := by
  intro cs
  induction cs with
  | nil =>
    intro ids _ n idv _ _ c hc
    cases hc
  | cons c cs ih =>
    intro ids hok n idv hget hidne c2 hc2 hname
    obtain ⟨hok2, hhead⟩ := collisionCheck_cons_ok hok
    rcases List.mem_cons.mp hc2 with rfl | htail
    · -- the head child itself
      exact hhead idv (hname ▸ hget) hidne
    · by_cases hn : n = c.getName
      · subst hn
        have hcid : c.getId = idv := hhead idv hget hidne
        have hget2 : jsGet (jsSet ids c.getName c.getId) c.getName = some idv := by
          rw [jsGet_set_self, hcid]
        exact ih (jsSet ids c.getName c.getId) hok2 c.getName idv hget2 hidne c2 htail hname
      · have hget2 : jsGet (jsSet ids c.getName c.getId) n = some idv := by
          rw [jsGet_set_ne _ _ hn]
          exact hget
        exact ih (jsSet ids c.getName c.getId) hok2 n idv hget2 hidne c2 htail hname

theorem collisionCheck_ok_pairwise :
    ∀ (cs : List BaseType) (ids : JsMap String),
      collisionCheck ids cs = .ok () →
      (∀ c ∈ cs, c.getId ≠ "") →
      ∀ c1 ∈ cs, ∀ c2 ∈ cs, c1.getName = c2.getName → c1.getId = c2.getId := by
  intro cs
  induction cs with
  | nil =>
    intro ids _ _ c1 h1
    cases h1
  | cons c cs ih =>
    intro ids hok hne c1 h1 c2 h2 hnm
    obtain ⟨hok2, _⟩ := collisionCheck_cons_ok hok
    have hnetail : ∀ x ∈ cs, x.getId ≠ "" :=
      fun x hx => hne x (List.mem_cons_of_mem _ hx)
    rcases List.mem_cons.mp h1 with rfl | h1t
    · rcases List.mem_cons.mp h2 with rfl | h2t
      · rfl
      · have hget : jsGet (jsSet ids c1.getName c1.getId) c1.getName = some c1.getId :=
          jsGet_set_self _ _ _
        exact (collisionCheck_map_agree cs _ hok2 c1.getName c1.getId hget
          (hne c1 (List.mem_cons_self _ _)) c2 h2t hnm.symm).symm
    · rcases List.mem_cons.mp h2 with rfl | h2t
      · have hget : jsGet (jsSet ids c2.getName c2.getId) c2.getName = some c2.getId :=
          jsGet_set_self _ _ _
        exact collisionCheck_map_agree cs _ hok2 c2.getName c2.getId hget
          (hne c2 (List.mem_cons_self _ _)) c1 h1t hnm
      · exact ih _ hok2 hnetail c1 h1t c2 h2t hnm

theorem collisionCheck_error_shape :
    ∀ (cs : List BaseType) (ids : JsMap String) (carrier : List BaseType) (e : GenError),
      collisionCheck ids cs = .error e →
      (∀ c ∈ cs, c ∈ carrier) →
      (∀ n v, jsGet ids n = some v → ∃ c ∈ carrier, c.getName = n ∧ c.getId = v) →
      ∃ N c1 c2, e = .multipleDefinitions N ∧ c1 ∈ carrier ∧ c2 ∈ carrier ∧
        c1.getName = N ∧ c2.getName = N ∧ c1.getId ≠ c2.getId := by
  intro cs
  induction cs with
  | nil =>
    intro ids carrier e h
    simp only [collisionCheck] at h
    exact Except.noConfusion h
  | cons c cs ih =>
    intro ids carrier e herr hsub hprov
    have hprov2 : ∀ n v, jsGet (jsSet ids c.getName c.getId) n = some v →
        ∃ x ∈ carrier, x.getName = n ∧ x.getId = v := by
      intro n v hget
      by_cases hn : n = c.getName
      · subst hn
        rw [jsGet_set_self] at hget
        injection hget with hv
        exact ⟨c, hsub c (List.mem_cons_self _ _), rfl, hv⟩
      · rw [jsGet_set_ne _ _ hn] at hget
        exact hprov n v hget
    have hsub2 : ∀ x ∈ cs, x ∈ carrier :=
      fun x hx => hsub x (List.mem_cons_of_mem _ hx)
    simp only [collisionCheck] at herr
    cases hprev : jsGet ids c.getName with
    | none =>
      simp only [hprev] at herr
      exact ih _ carrier e herr hsub2 hprov2
    | some p0 =>
      simp only [hprev] at herr
      by_cases hcol : p0 ≠ "" ∧ c.getId ≠ p0
      · rw [if_pos hcol] at herr
        injection herr with he
        obtain ⟨cp, hcpmem, hcpn, hcpid⟩ := hprov c.getName p0 hprev
        refine ⟨c.getName, cp, c, he.symm, hcpmem, hsub c (List.mem_cons_self _ _),
          hcpn, rfl, ?_⟩
        rw [hcpid]
        exact fun hh => hcol.2 hh.symm
      · rw [if_neg hcol] at herr
        exact ih _ carrier e herr hsub2 hprov2

/-! ## Lemmas about materialization -/

theorem materialize_spec (g : Generator) :
    ∀ (cs : List BaseType) (defs : JsMap Definition),
      (((materialize g cs defs).2.map Prod.fst).Nodup) ∧
      (∀ p ∈ (materialize g cs defs).2, jsHas defs p.1 = false) ∧
      (∀ k, jsHas (materialize g cs defs).1 k = true ↔
        (jsHas defs k = true ∨ k ∈ (materialize g cs defs).2.map Prod.fst)) ∧
      (∀ k, jsHas defs k = true → jsGet (materialize g cs defs).1 k = jsGet defs k) ∧
      (∃ ext, (materialize g cs defs).1 = defs ++ ext) := by
  intro cs
  induction cs with
  | nil =>
    intro defs
    refine ⟨by simp [materialize], by simp [materialize], ?_, ?_, ⟨[], by simp [materialize]⟩⟩
    · intro k
      simp [materialize]
    · intro k _
      rfl
  | cons c cs ih =>
    intro defs
    by_cases hin : jsHas defs c.getName = true
    · have hm : materialize g (c :: cs) defs = materialize g cs defs := by
        simp only [materialize, hin, if_pos]
      rw [hm]
      exact ih defs
    · have hinf : jsHas defs c.getName = false := by
        cases h : jsHas defs c.getName
        · rfl
        · exact absurd h hin
      have hm : materialize g (c :: cs) defs =
          ((materialize g cs (jsSet defs c.getName (g.typeFormatter.getDefinition c.getType))).1,
           (c.getName, c) ::
             (materialize g cs (jsSet defs c.getName (g.typeFormatter.getDefinition c.getType))).2) := by
        simp only [materialize, hinf]
        rfl
      obtain ⟨ihnd, ihdisj, ihhas, ihget, ihext⟩ :=
        ih (jsSet defs c.getName (g.typeFormatter.getDefinition c.getType))
      rw [hm]
      refine ⟨?_, ?_, ?_, ?_, ?_⟩
      · rw [List.map_cons, List.nodup_cons]
        refine ⟨?_, ihnd⟩
        intro hmem
        rcases List.mem_map.mp hmem with ⟨p, hp, hpe⟩
        have := ihdisj p hp
        rw [hpe] at this
        rw [jsHas_eq_false_iff, mem_keys_set] at this
        exact this (Or.inl rfl)
      · intro p hp
        rcases List.mem_cons.mp hp with rfl | hpt
        · exact hinf
        · have := ihdisj p hpt
          rw [jsHas_eq_false_iff, mem_keys_set] at this
          rw [jsHas_eq_false_iff]
          exact fun hmem => this (Or.inr hmem)
      · intro k
        rw [ihhas k, jsHas_set_iff, List.map_cons, List.mem_cons]
        tauto
      · intro k hk
        have hkne : k ≠ c.getName := by
          intro he
          rw [he] at hk
          exact hin hk
        rw [ihget k (by rw [jsHas_set_iff]; exact Or.inr hk), jsGet_set_ne _ _ hkne]
      · obtain ⟨ext, hext⟩ := ihext
        refine ⟨(c.getName, g.typeFormatter.getDefinition c.getType) :: ext, ?_⟩
        rw [hext, jsSet_of_not_has _ hinf, List.append_assoc]
        rfl

theorem appendRoot_ok_spec {g : Generator} {root : BaseType} {defs d2 : JsMap Definition}
    {log : List (String × BaseType)}
    (h : appendRootChildDefinitions g root defs = .ok (d2, log)) :
    ((log.map Prod.fst).Nodup) ∧
    (∀ p ∈ log, jsHas defs p.1 = false) ∧
    (∀ k, jsHas d2 k = true ↔ (jsHas defs k = true ∨ k ∈ log.map Prod.fst)) ∧
    (∀ k, jsHas defs k = true → jsGet d2 k = jsGet defs k) ∧
    (∃ ext, d2 = defs ++ ext) := by
  simp only [appendRootChildDefinitions] at h
  cases hcc : collisionCheck [] (childrenOf g root) with
  | error e =>
    rw [hcc] at h
    cases h
  | ok u =>
    cases u
    rw [hcc] at h
    injection h with h
    obtain ⟨h1, h2, h3, h4, h5⟩ := materialize_spec g (childrenOf g root) defs
    rw [show d2 = (materialize g (childrenOf g root) defs).1 from by rw [h],
      show log = (materialize g (childrenOf g root) defs).2 from by rw [h]]
    exact ⟨h1, h2, h3, h4, h5⟩

theorem collectAll_ok_spec (g : Generator) :
    ∀ (roots : List BaseType) (defs0 m : JsMap Definition) (log : List (String × BaseType)),
      collectAll g roots defs0 = .ok (m, log) →
      ((log.map Prod.fst).Nodup) ∧
      (∀ p ∈ log, jsHas defs0 p.1 = false) ∧
      (∀ k, jsHas m k = true ↔ (jsHas defs0 k = true ∨ k ∈ log.map Prod.fst)) ∧
      (∀ k, jsHas defs0 k = true → jsGet m k = jsGet defs0 k) ∧
      (∃ ext, m = defs0 ++ ext) := by
  intro roots
  induction roots with
  | nil =>
    intro defs0 m log h
    simp only [collectAll] at h
    injection h with h
    injection h with hm hlog
    subst hm
    subst hlog
    refine ⟨by simp, ?_, ?_, ?_, ?_⟩
    · intro p hp
      cases hp
    · intro k
      simp
    · intro k _
      rfl
    · exact ⟨[], by simp⟩
  | cons r roots ih =>
    intro defs0 m log h
    simp only [collectAll] at h
    split at h
    next e har => exact Except.noConfusion h
    next d2 log1 har =>
      split at h
      next e hca => exact Except.noConfusion h
      next d3 log2 hca =>
        injection h with h
        injection h with hm hlog
        subst hm
        subst hlog
        obtain ⟨a1, a2, a3, a4, a5⟩ := appendRoot_ok_spec har
        obtain ⟨b1, b2, b3, b4, b5⟩ := ih d2 d3 log2 hca
        have hdisj : ∀ x ∈ log1.map Prod.fst, x ∉ log2.map Prod.fst := by
          intro x hx1 hx2
          rcases List.mem_map.mp hx2 with ⟨p, hp, hpe⟩
          have := b2 p hp
          rw [hpe] at this
          rw [(a3 x).2 (Or.inr hx1)] at this
          cases this
        refine ⟨?_, ?_, ?_, ?_, ?_⟩
        · rw [List.map_append, List.nodup_append]
          exact ⟨a1, b1, fun x hx1 hx2 => hdisj x hx1 hx2⟩
        · intro p hp
          rcases List.mem_append.mp hp with h1 | h2
          · exact a2 p h1
          · have hb := b2 p h2
            cases hd : jsHas defs0 p.1
            · rfl
            · rw [(a3 p.1).2 (Or.inl hd)] at hb
              cases hb
        · intro k
          rw [b3 k, a3 k, List.map_append, List.mem_append]
          tauto
        · intro k hk
          rw [b4 k ((a3 k).2 (Or.inl hk)), a4 k hk]
        · obtain ⟨e1, he1⟩ := a5
          obtain ⟨e2, he2⟩ := b5
          exact ⟨e1 ++ e2, by rw [he2, he1, List.append_assoc]⟩

/-! ## Claim C1 -/

/-- A formatter returning two distinct definition children that share the name
A, one of them carrying the empty string as id. -/
def loopholeFormatter : TypeFormatter :=
  ⟨fun _ => [], fun _ => [.definitionType ("") ("A") (.otherType ("x")),
                          .definitionType ("ia2") ("A") (.otherType ("y"))]⟩

/-- A generator over `loopholeFormatter`. -/
def genC1cex : Generator := ⟨⟨[], []⟩, trivialParser, loopholeFormatter⟩

/-- C1 counterexample: among the deduplicated children two children share the
name A with different ids, yet the call succeeds instead of failing: the
collision test `if (previousId && child.getId() !== previousId)` skips the
comparison when the previously recorded id is the empty string, because the
empty string is falsy in JavaScript. -/
theorem claim_c1_cex :
    (∃ c1 ∈ childrenOf genC1cex (.otherType ("root")),
      ∃ c2 ∈ childrenOf genC1cex (.otherType ("root")),
        c1.getName = c2.getName ∧ c1.getId ≠ c2.getId) ∧
    ∃ res, appendRootChildDefinitions genC1cex (.otherType ("root")) [] = .ok res :=
  ⟨by decide, ⟨_, rfl⟩⟩

/-- C1 (amended): (1) if among the deduplicated named children two children
share a name but have different ids, and no deduplicated child has the empty
string as id (the only falsy string), the call fails with the
multiple-definitions error carrying a genuinely colliding type name;
(2) whenever collection succeeds, no two distinct children sharing one name
are ever materialized under definitions keys — the materialization log has
pairwise-distinct names — including when several roots accumulate into one
shared definitions mapping. -/
theorem claim_c1 :
    (∀ (g : Generator) (rootType : BaseType) (defs : JsMap Definition),
      (∀ c ∈ childrenOf g rootType, c.getId ≠ "") →
      (∃ c1 ∈ childrenOf g rootType, ∃ c2 ∈ childrenOf g rootType,
        c1.getName = c2.getName ∧ c1.getId ≠ c2.getId) →
      ∃ N, appendRootChildDefinitions g rootType defs = .error (.multipleDefinitions N) ∧
        ∃ c1 ∈ childrenOf g rootType, ∃ c2 ∈ childrenOf g rootType,
          c1.getName = N ∧ c2.getName = N ∧ c1.getId ≠ c2.getId) ∧
    (∀ (g : Generator) (roots : List BaseType) (defs0 m : JsMap Definition)
      (log : List (String × BaseType)),
      collectAll g roots defs0 = .ok (m, log) →
      (log.map Prod.fst).Nodup ∧
      ∀ p1 ∈ log, ∀ p2 ∈ log, p1.1 = p2.1 → p1 = p2) := by
  constructor
  · intro g rootType defs hne hcol
    cases hcc : collisionCheck [] (childrenOf g rootType) with
    | ok u =>
      cases u
      obtain ⟨c1, h1, c2, h2, hnm, hid⟩ := hcol
      exact absurd
        (collisionCheck_ok_pairwise (childrenOf g rootType) [] hcc hne c1 h1 c2 h2 hnm) hid
    | error e =>
      obtain ⟨N, c1, c2, he, hm1, hm2, hn1, hn2, hid⟩ :=
        collisionCheck_error_shape (childrenOf g rootType) [] (childrenOf g rootType) e hcc
          (fun x hx => hx) (by intro n v hv; cases hv)
      subst he
      refine ⟨N, ?_, c1, hm1, c2, hm2, hn1, hn2, hid⟩
      simp only [appendRootChildDefinitions, hcc]
  · intro g roots defs0 m log h
    obtain ⟨hnd, -, -, -, -⟩ := collectAll_ok_spec g roots defs0 m log h
    exact ⟨hnd, fun p1 h1 p2 h2 he => List.inj_on_of_nodup_map hnd h1 h2 he⟩

/-- A formatter returning two distinct definition children that share the name
A, both with truthy (nonempty) ids. -/
def collideFormatter : TypeFormatter :=
  ⟨fun _ => [], fun _ => [.definitionType ("ia1") ("A") (.otherType ("x")),
                          .definitionType ("ia2") ("A") (.otherType ("y"))]⟩

/-- A generator over `collideFormatter`. -/
def genC1 : Generator := ⟨⟨[], []⟩, trivialParser, collideFormatter⟩

/-- A formatter with a single definition child named A and a constant
definition body. -/
def okFormatter : TypeFormatter :=
  ⟨fun _ => [(("type"), ("object"))],
   fun _ => [.definitionType ("ia1") ("A") (.otherType ("x"))]⟩

/-- A generator over `okFormatter`. -/
def genOk : Generator := ⟨⟨[], []⟩, trivialParser, okFormatter⟩

/-- Witness for C1 at concrete inputs: with two same-named children of
distinct nonempty ids the call fails naming A; and a successful two-root
collection materializes the shared child A exactly once. -/
theorem claim_c1_witness :
    (∃ N, appendRootChildDefinitions genC1 (.otherType ("root")) [] =
        .error (.multipleDefinitions N) ∧
      ∃ c1 ∈ childrenOf genC1 (.otherType ("root")),
        ∃ c2 ∈ childrenOf genC1 (.otherType ("root")),
          c1.getName = N ∧ c2.getName = N ∧ c1.getId ≠ c2.getId) ∧
    ((([(("A"), BaseType.definitionType ("ia1") ("A") (.otherType ("x")))]).map
        Prod.fst).Nodup ∧
      ∀ p1 ∈ [(("A"), BaseType.definitionType ("ia1") ("A") (.otherType ("x")))],
        ∀ p2 ∈ [(("A"), BaseType.definitionType ("ia1") ("A") (.otherType ("x")))],
          p1.1 = p2.1 → p1 = p2) :=
  ⟨claim_c1.1 genC1 (.otherType ("root")) [] (by decide) (by decide),
   claim_c1.2 genOk [.otherType ("r1"), .otherType ("r2")] []
     [(("A"), [(("type"), ("object"))])]
     [(("A"), BaseType.definitionType ("ia1") ("A") (.otherType ("x")))] rfl⟩

/-! ## Claim C7 -/

/-- C7: `appendRootChildDefinitions` never removes or overwrites an existing
entry of the shared mapping: across any sequence of invocations (`collectAll`),
every key already present keeps its stored definition, the final mapping is
the original one plus appended fresh entries, `getDefinition` is invoked only
for children whose name was not yet a key (the materialization log — exactly
the children for which `getDefinition` was called — is disjoint from the
original keys), and each name is materialized at most once across the whole
sequence (the log's names are pairwise distinct). -/
theorem claim_c7 (g : Generator) (roots : List BaseType) (defs0 m : JsMap Definition)
    (log : List (String × BaseType))
    (h : collectAll g roots defs0 = .ok (m, log)) :
    (∀ k, jsHas defs0 k = true → jsGet m k = jsGet defs0 k) ∧
    (∃ ext, m = defs0 ++ ext) ∧
    (∀ p ∈ log, jsHas defs0 p.1 = false) ∧
    (log.map Prod.fst).Nodup := by
  obtain ⟨h1, h2, h3, h4, h5⟩ := collectAll_ok_spec g roots defs0 m log h
  exact ⟨h4, h5, h2, h1⟩

/-- Witness for C7: collecting the same child twice into a map prefilled with
a binding for B leaves B's definition untouched, appends A after it, keeps A
out of the prefilled keys and logs A exactly once. -/
theorem claim_c7_witness :
    jsGet [(("B"), [(("type"), ("string"))]), (("A"), [(("type"), ("object"))])] ("B")
      = jsGet [(("B"), [(("type"), ("string"))])] ("B") ∧
    (∃ ext, ([(("B"), [(("type"), ("string"))]), (("A"), [(("type"), ("object"))])] :
        JsMap Definition) = [(("B"), [(("type"), ("string"))])] ++ ext) := by
  have h := claim_c7 genOk [.otherType ("r1"), .otherType ("r2")]
    [(("B"), [(("type"), ("string"))])]
    [(("B"), [(("type"), ("string"))]), (("A"), [(("type"), ("object"))])]
    [(("A"), BaseType.definitionType ("ia1") ("A") (.otherType ("x")))] rfl
  exact ⟨h.1 ("B") rfl, h.2.1⟩

/-! ## Claim C3 -/

theorem rootDefinitionOf_of_ne_one {g : Generator} {ts : List BaseType}
    (h : ts.length ≠ 1) : rootDefinitionOf g ts = [] := by
  match ts with
  | [] => rfl
  | [t] => exact absurd rfl h
  | a :: b :: rest => rfl

theorem mappedKeys (rtd : Definition) :
    ((rtd.map fun p => (p.1, SVal.str p.2)).map Prod.fst) = rtd.map Prod.fst := by
  simp

theorem assembleDoc_schema_field (rtd : Definition) (defs : JsMap Definition)
    (h : ("$schema") ∉ rtd.map Prod.fst) :
    jsGet (assembleDoc rtd defs) ("$schema") = some (SVal.str draft07) := by
  rw [assembleDoc]
  rw [jsGet_set_ne _ _ (by decide)]
  rw [jsGet_setAll_of_not_mem _ (by rw [mappedKeys]; exact h)]
  rfl

theorem assembleDoc_flat (rtd : Definition) (defs : JsMap Definition)
    (h1 : ("$schema") ∉ rtd.map Prod.fst) (h2 : ("definitions") ∉ rtd.map Prod.fst)
    (h3 : (rtd.map Prod.fst).Nodup) :
    assembleDoc rtd defs =
      (("$schema"), SVal.str draft07) :: (rtd.map fun p => (p.1, SVal.str p.2)) ++
        [(("definitions"), SVal.defs defs)] := by
  rw [assembleDoc]
  have hsetall : jsSetAll [(("$schema"), SVal.str draft07)]
        (rtd.map fun p => (p.1, SVal.str p.2))
      = [(("$schema"), SVal.str draft07)] ++ (rtd.map fun p => (p.1, SVal.str p.2)) := by
    apply jsSetAll_of_fresh
    · rw [mappedKeys]
      exact h3
    · intro x hx
      rw [mappedKeys] at hx
      rw [jsHas_eq_false_iff]
      simp
      intro he
      exact h1 (he ▸ hx)
  rw [hsetall]
  have hno : jsHas ([(("$schema"), SVal.str draft07)] ++
      (rtd.map fun p => (p.1, SVal.str p.2))) ("definitions") = false := by
    rw [jsHas_append, Bool.or_eq_false_iff]
    refine ⟨by decide, ?_⟩
    rw [jsHas_eq_false_iff, mappedKeys]
    exact h2
  rw [jsSet_of_not_has _ hno]
  simp

/-- C3: whenever `createSchema` succeeds, the document is the object literal
spreading the selected root-type definition between a `$schema` field and the
collected `definitions` property.  When the requested roots are not exactly
one, no root fields are spread: the document holds only the draft-07 `$schema`
field and the definitions mapping.  The top-level `$schema` field equals the
draft-07 URI whenever the root's own definition does not itself carry a field
named `$schema` (the JavaScript spread would override it otherwise; the
formatter's `Definition` shape has no such schema keyword), and for a
single root whose definition fields avoid the two envelope names, the
document's fields are exactly the `$schema` field followed by that root
definition's own fields followed by `definitions`. -/
theorem claim_c3 (g : Generator) (q : Option String) (doc : SchemaDoc)
    (h : createSchema g q = .ok doc) :
    ∃ rootNodes definitions,
      getRootNodes g q = .ok rootNodes ∧
      (∃ log, collectAll g (rootNodes.map g.nodeParser.createType) []
        = .ok (definitions, log)) ∧
      doc = assembleDoc (rootDefinitionOf g (rootNodes.map g.nodeParser.createType))
        definitions ∧
      ((rootNodes.map g.nodeParser.createType).length ≠ 1 →
        doc = [(("$schema"), SVal.str draft07), (("definitions"), SVal.defs definitions)]) ∧
      (("$schema") ∉ (rootDefinitionOf g
          (rootNodes.map g.nodeParser.createType)).map Prod.fst →
        jsGet doc ("$schema") = some (SVal.str draft07)) ∧
      ((("$schema") ∉ (rootDefinitionOf g
          (rootNodes.map g.nodeParser.createType)).map Prod.fst ∧
        ("definitions") ∉ (rootDefinitionOf g
          (rootNodes.map g.nodeParser.createType)).map Prod.fst ∧
        ((rootDefinitionOf g (rootNodes.map g.nodeParser.createType)).map
          Prod.fst).Nodup) →
        doc = (("$schema"), SVal.str draft07) ::
          ((rootDefinitionOf g (rootNodes.map g.nodeParser.createType)).map
            fun p => (p.1, SVal.str p.2)) ++
          [(("definitions"), SVal.defs definitions)]) := by
  simp only [createSchema] at h
  split at h
  next e hroot => exact Except.noConfusion h
  next rootNodes hroot =>
    split at h
    next e hcoll => exact Except.noConfusion h
    next definitions log hcoll =>
      injection h with h
      refine ⟨rootNodes, definitions, hroot, ⟨log, hcoll⟩, h.symm, ?_, ?_, ?_⟩
      · intro hlen
        rw [← h, rootDefinitionOf_of_ne_one hlen]
        rfl
      · intro hns
        rw [← h]
        exact assembleDoc_schema_field _ _ hns
      · rintro ⟨hh1, hh2, hh3⟩
        rw [← h]
        exact assembleDoc_flat _ _ hh1 hh2 hh3

/-- The type-graph node the parser produces for the single root Foo. -/
def defFooType : BaseType := .definitionType ("def-Foo") ("Foo") (.otherType ("obj-Foo"))

/-- The one named child reachable from the root. -/
def childA : BaseType := .definitionType ("id-A") ("A") (.otherType ("obj-A"))

/-- A formatter producing a constant object definition and the single child. -/
def pipeFormatter : TypeFormatter := ⟨fun _ => [(("type"), ("object"))], fun _ => [childA]⟩

/-- A parser resolving every declaration to the root's type-graph node. -/
def pipeParser : NodeParser := ⟨fun _ => defFooType⟩

/-- A generator wired for a full single-root pipeline run. -/
def genC3 : Generator :=
  ⟨⟨[], [⟨"/src/a.ts", .node (.cons (.decl fooDecl) .nil)⟩]⟩, pipeParser, pipeFormatter⟩

/-- Witness for C3: a concrete single-root run, whose document spreads the
root definition's `type` field between `$schema` and `definitions`. -/
theorem claim_c3_witness :
    ∃ rootNodes definitions,
      getRootNodes genC3 (some ("Foo")) = .ok rootNodes ∧
      (∃ log, collectAll genC3 (rootNodes.map genC3.nodeParser.createType) []
        = .ok (definitions, log)) ∧
      ([(("$schema"), SVal.str draft07), (("type"), SVal.str ("object")),
        (("definitions"), SVal.defs [(("A"), [(("type"), ("object"))])])] : SchemaDoc)
        = assembleDoc
            (rootDefinitionOf genC3 (rootNodes.map genC3.nodeParser.createType))
            definitions ∧
      ((rootNodes.map genC3.nodeParser.createType).length ≠ 1 →
        ([(("$schema"), SVal.str draft07), (("type"), SVal.str ("object")),
          (("definitions"), SVal.defs [(("A"), [(("type"), ("object"))])])] : SchemaDoc)
          = [(("$schema"), SVal.str draft07), (("definitions"), SVal.defs definitions)]) ∧
      (("$schema") ∉ (rootDefinitionOf genC3
          (rootNodes.map genC3.nodeParser.createType)).map Prod.fst →
        jsGet ([(("$schema"), SVal.str draft07), (("type"), SVal.str ("object")),
          (("definitions"), SVal.defs [(("A"), [(("type"), ("object"))])])] : SchemaDoc)
          ("$schema") = some (SVal.str draft07)) ∧
      ((("$schema") ∉ (rootDefinitionOf genC3
          (rootNodes.map genC3.nodeParser.createType)).map Prod.fst ∧
        ("definitions") ∉ (rootDefinitionOf genC3
          (rootNodes.map genC3.nodeParser.createType)).map Prod.fst ∧
        ((rootDefinitionOf genC3 (rootNodes.map genC3.nodeParser.createType)).map
          Prod.fst).Nodup) →
        ([(("$schema"), SVal.str draft07), (("type"), SVal.str ("object")),
          (("definitions"), SVal.defs [(("A"), [(("type"), ("object"))])])] : SchemaDoc)
          = (("$schema"), SVal.str draft07) ::
            ((rootDefinitionOf genC3 (rootNodes.map genC3.nodeParser.createType)).map
              fun p => (p.1, SVal.str p.2)) ++
            [(("definitions"), SVal.defs definitions)]) :=
  claim_c3 genC3 (some ("Foo"))
    [(("$schema"), SVal.str draft07), (("type"), SVal.str ("object")),
     (("definitions"), SVal.defs [(("A"), [(("type"), ("object"))])])] rfl

end SchemaGen
